import Mathlib

/-!
Shallow embedding of `src/simple-vector/simple_vector.h` (class
`SimpleVector<Type>`), a dynamic-array container backed by an owning buffer
`ArrayPtr<Type>`.

A vector state is the owned buffer (a list of length `capacity`, slot `i` of
the list modelling `items_[i]`), the logical size `size_` and the allocated
capacity `capacity_`.  C++ default construction `Type()` is modelled by
`default` of an `Inhabited` instance; `std::move` of an element is modelled as
a copy (the moved-from slot keeps a value, which is never observed through the
logical interface).  `size_t` values are modelled as `Nat`.
-/

namespace SimpleVec

structure SimpleVector (α : Type) where
  items : List α
  size : Nat
  capacity : Nat
deriving DecidableEq, Repr

variable {α : Type}

/-- Structural invariant of the class: the buffer owned by `items_` has
exactly `capacity_` slots, and `size_ <= capacity_`. -/
def WF (v : SimpleVector α) : Prop :=
  v.items.length = v.capacity ∧ v.size ≤ v.capacity

instance (v : SimpleVector α) : Decidable (WF v) := by
  unfold WF; infer_instance

/-- Modelled from the spec: the Owning Buffer collaborator `ArrayPtr<Type>`
(its file `array_ptr.h` is not in the repository snapshot).  Spec section 6:
`Allocate(n)` returns an owner of `n` contiguous default-constructed slots
(`n = 0` yields an empty owner). -/
def newBuffer (α : Type) [Inhabited α] (n : Nat) : List α :=
  List.replicate n default

/-- Writing the whole of `src` into the front of buffer `dst`, as
`std::copy(src.begin(), src.end(), dst.Get())` (or `std::move` of the same
range) does; slots past `src.length` keep their old contents. -/
def copyInto (src dst : List α) : List α :=
  src ++ dst.drop src.length

/-- The assignment loop `for (it = ... + lo; it != ... + hi; ++it)
*it = std::move(Type());` writing a default value into slots `[lo, hi)`
of the buffer (used by `Resize`; meaningful for `lo ≤ hi ≤ l.length`). -/
def setRangeDefault [Inhabited α] (l : List α) (lo hi : Nat) : List α :=
  l.take lo ++ List.replicate (hi - lo) default ++ l.drop hi

/-- The logical element sequence `[begin(), end())`, i.e. the first `size_`
slots of the buffer. -/
def logical (v : SimpleVector α) : List α :=
  v.items.take v.size

/-- Unchecked element access `operator[]` / `items_[index]`. -/
def elemAt [Inhabited α] (v : SimpleVector α) (index : Nat) : α :=
  v.items.getD index default

/-- Models `SimpleVector()` — the default constructor: no allocation. -/
def emptyVec : SimpleVector α :=
  { items := [], size := 0, capacity := 0 }

/-- Models `SimpleVector(std::initializer_list<Type> init)`: buffer of
`init.size()` slots, the elements copied in order. -/
def fromList [Inhabited α] (init : List α) : SimpleVector α :=
  { items := copyInto init (newBuffer α init.length)
    size := init.length
    capacity := init.length }

/-- Models `GetSize()`. -/
def GetSize (v : SimpleVector α) : Nat := v.size

/-- Models `GetCapacity()`. -/
def GetCapacity (v : SimpleVector α) : Nat := v.capacity

/-- Models `IsEmpty()`. -/
def IsEmpty (v : SimpleVector α) : Bool := v.size == 0

/-- Models `Clear()`. -/
def Clear (v : SimpleVector α) : SimpleVector α :=
  { v with size := 0 }

/-- Models `Resize(new_size)`, translated branch by branch from the source:
truncate; or default-fill `[size_, new_size)` in place; or allocate
`max(new_size, 2 * capacity_)` slots, move the old `[0, size_)` elements into
the prefix, default-fill `[size_, new_size)`, and swap the new buffer in. -/
def Resize [Inhabited α] (v : SimpleVector α) (new_size : Nat) : SimpleVector α :=
  if new_size ≤ v.size then
    { v with size := new_size }
  else if new_size ≤ v.capacity then
    { v with
      items := setRangeDefault v.items v.size new_size
      size := new_size }
  else
    let new_capacity := max new_size (2 * v.capacity)
    { items := setRangeDefault (copyInto (logical v) (newBuffer α new_capacity))
        v.size new_size
      size := new_size
      capacity := new_capacity }

/-- Models `PushBack(item)` (both overloads): `Resize(size_ + 1)` then
`items_[size_ - 1] = item`. -/
def PushBack [Inhabited α] (v : SimpleVector α) (item : α) : SimpleVector α :=
  let w := Resize v (v.size + 1)
  { w with items := w.items.set (w.size - 1) item }

/-- A sequence of `PushBack` calls, in order. -/
def pushMany [Inhabited α] (v : SimpleVector α) (l : List α) : SimpleVector α :=
  l.foldl PushBack v

/-- Models `Insert(pos, value)` (both overloads), with `pos` given as the numeric
index `std::distance(cbegin(), pos)`: `Resize(size_ + 1)`, then
`std::copy_backward(new_pos, begin() + (size_ - 1), end())` shifts
slots `[index, size_ - 1)` one step right into `[index + 1, size_)`, then the
freed slot receives `value`. -/
def Insert [Inhabited α] (v : SimpleVector α) (index : Nat) (value : α) :
    SimpleVector α :=
  let w := Resize v (v.size + 1)
  let shifted := w.items.take (index + 1)
      ++ (w.items.drop index).take (w.size - 1 - index)
      ++ w.items.drop w.size
  { w with items := shifted.set index value }

/-- Models `Erase(pos)`, with `pos` given as the numeric index:
`std::move(begin() + index + 1, end(), pos)` shifts slots
`[index + 1, size_)` one step left into `[index, size_ - 1)`, then
`--size_`. -/
def Erase (v : SimpleVector α) (index : Nat) : SimpleVector α :=
  { v with
    items := v.items.take index
      ++ (v.items.drop (index + 1)).take (v.size - 1 - index)
      ++ v.items.drop (v.size - 1)
    size := v.size - 1 }

/-- Models `PopBack()`: decrement `size_` unless already zero. -/
def PopBack (v : SimpleVector α) : SimpleVector α :=
  if 0 < v.size then { v with size := v.size - 1 } else v

/-- Models `Reserve(new_capacity)`: when `new_capacity > capacity_`, allocate a new
buffer, copy the logical elements into its prefix and swap it in; otherwise
do nothing. -/
def Reserve [Inhabited α] (v : SimpleVector α) (new_capacity : Nat) :
    SimpleVector α :=
  if v.capacity < new_capacity then
    { v with
      items := copyInto (logical v) (newBuffer α new_capacity)
      capacity := new_capacity }
  else v

/-- Models `At(index)`: the returned value (`Except.error` models the thrown
`std::out_of_range`) paired with the state of the vector after the call —
the method mutates nothing, so the state component is the receiver. -/
def At [Inhabited α] (v : SimpleVector α) (index : Nat) :
    Except String α × SimpleVector α :=
  if v.size ≤ index then (Except.error "Index is out of range", v)
  else (Except.ok (v.items.getD index default), v)

/-- Models `operator=(const SimpleVector& rhs)` on distinct objects, with every step
run to completion: a fresh buffer of `rhs.capacity_` slots is built and
swapped into `this` (the old buffer moves into the local `other`), then
`std::copy(rhs.begin(), rhs.end(), begin())` fills the prefix, then `size_`
and `capacity_` are updated. -/
def copyAssignDistinct [Inhabited α] (self rhs : SimpleVector α) :
    SimpleVector α :=
  let _ := self.items  -- the old buffer, now owned by the local `other`
  { items := copyInto (logical rhs) (newBuffer α rhs.capacity)
    size := rhs.size
    capacity := rhs.capacity }

/-- The observable state of the target of `operator=(const SimpleVector&)` if
copying element `k` of `rhs` throws: the swap `items_.swap(other)` has already
replaced the buffer by the fresh one (which now holds the `k` successfully
copied elements in front of default-constructed slots), while `size_` and
`capacity_` still hold their old values; the old buffer is destroyed with the
local `other` during unwinding. -/
def copyAssignInterrupted [Inhabited α] (self rhs : SimpleVector α) (k : Nat) :
    SimpleVector α :=
  { items := copyInto ((logical rhs).take k) (newBuffer α rhs.capacity)
    size := self.size
    capacity := self.capacity }

/-- Models `operator=(const SimpleVector& rhs)`: the guard `this != &rhs` is the
`sameObject` flag (when it is `true`, `rhs` is the very object `self`). -/
def copyAssign [Inhabited α] (self rhs : SimpleVector α) (sameObject : Bool) :
    SimpleVector α :=
  if sameObject then self else copyAssignDistinct self rhs

/-- Models `SimpleVector(SimpleVector&& other)`: the new object takes the buffer,
size and capacity; `std::move` of the `ArrayPtr` and the two
`std::exchange(..., 0)` calls leave `other` as the valid empty vector.
Returns (constructed object, state of `other` afterwards). -/
def moveConstruct (other : SimpleVector α) : SimpleVector α × SimpleVector α :=
  ({ items := other.items, size := other.size, capacity := other.capacity },
   { items := [], size := 0, capacity := 0 })

/-- Models `operator=(SimpleVector&& rhs)` with the `this != &rhs` guard as the
`sameObject` flag.  Returns (state of `*this`, state of `rhs`) after the
call. -/
def moveAssign (self rhs : SimpleVector α) (sameObject : Bool) :
    SimpleVector α × SimpleVector α :=
  if sameObject then (self, rhs)
  else
    ({ items := rhs.items, size := rhs.size, capacity := rhs.capacity },
     { items := [], size := 0, capacity := 0 })

/-- Models `std::equal(lhs.begin(), lhs.end(), rhs.begin(), rhs.end())`: ranges of
equal length with pairwise equal elements. -/
def listEqual [DecidableEq α] : List α → List α → Bool
  | [], [] => true
  | [], _ :: _ => false
  | _ :: _, [] => false
  | a :: as, b :: bs => if a = b then listEqual as bs else false

/-- Models `std::lexicographical_compare(lhs.begin(), lhs.end(), rhs.begin(),
rhs.end())`: walk both ranges; the first position where one element is
smaller decides; if the first range is exhausted first, it compares less. -/
def lexCompare [LinearOrder α] : List α → List α → Bool
  | _, [] => false
  | [], _ :: _ => true
  | a :: as, b :: bs =>
    if a < b then true else if b < a then false else lexCompare as bs

/-- Models `operator==`. -/
def svEq [DecidableEq α] (lhs rhs : SimpleVector α) : Bool :=
  listEqual (logical lhs) (logical rhs)

/-- Models `operator!=`. -/
def svNe [DecidableEq α] (lhs rhs : SimpleVector α) : Bool :=
  !(svEq lhs rhs)

/-- Models `operator<`. -/
def svLt [LinearOrder α] (lhs rhs : SimpleVector α) : Bool :=
  lexCompare (logical lhs) (logical rhs)

/-- Models `operator<=`, defined in the source as `!(rhs < lhs)`. -/
def svLe [LinearOrder α] (lhs rhs : SimpleVector α) : Bool :=
  !(svLt rhs lhs)

/-- Models `operator>`, defined in the source as `rhs < lhs`. -/
def svGt [LinearOrder α] (lhs rhs : SimpleVector α) : Bool :=
  svLt rhs lhs

/-- Models `operator>=`, defined in the source as `!(lhs < rhs)`. -/
def svGe [LinearOrder α] (lhs rhs : SimpleVector α) : Bool :=
  !(svLt lhs rhs)

/-- Standard lexicographic strict order on sequences, stated the way the
spec describes it: either some first differing position holds a smaller
element on the left, or the left sequence is a strict prefix of the right
one. -/
def LexSpec [LT α] [Inhabited α] (a b : List α) : Prop :=
  (∃ i, i < a.length ∧ i < b.length ∧
      (∀ j, j < i → a.getD j default = b.getD j default) ∧
      a.getD i default < b.getD i default) ∨
  (a.length < b.length ∧ ∀ j, j < a.length → a.getD j default = b.getD j default)

lemma length_copyInto (src dst : List α) :
    (copyInto src dst).length = max src.length dst.length := by
  simp [copyInto]; omega

lemma length_setRangeDefault [Inhabited α] (l : List α) {lo hi : Nat}
    (h1 : lo ≤ hi) (h2 : hi ≤ l.length) :
    (setRangeDefault l lo hi).length = l.length := by
  simp [setRangeDefault]; omega

lemma logical_length (v : SimpleVector α) (hwf : WF v) :
    (logical v).length = v.size := by
  obtain ⟨h1, h2⟩ := hwf
  simp [logical]; omega

lemma getD_of_take {l : List α} {n i : Nat} (h : i < n) (d : α) :
    (l.take n).getD i d = l.getD i d := by
  simp [List.getD_eq_getElem?_getD, List.getElem?_take, h]

lemma getD_replicate_of_lt {n i : Nat} (h : i < n) (a d : α) :
    (List.replicate n a).getD i d = a := by
  simp [List.getD_eq_getElem?_getD, List.getElem?_replicate, h]

lemma elemAt_eq_logical_getD [Inhabited α] (v : SimpleVector α) {i : Nat}
    (h : i < v.size) : elemAt v i = (logical v).getD i default := by
  simp [elemAt, logical, List.getD_eq_getElem?_getD, List.getElem?_take, h]

lemma Resize_size [Inhabited α] (v : SimpleVector α) (n : Nat) :
    (Resize v n).size = n := by
  unfold Resize
  split
  · rfl
  · split <;> rfl

lemma Resize_capacity [Inhabited α] (v : SimpleVector α) (n : Nat)
    (h : v.size ≤ v.capacity) :
    (Resize v n).capacity =
      if n ≤ v.capacity then v.capacity else max n (2 * v.capacity) := by
  unfold Resize
  split
  · next hle => rw [if_pos (le_trans hle h)]
  · split
    · next hc => rfl
    · next hc => rfl

lemma Resize_WF [Inhabited α] (v : SimpleVector α) (n : Nat) (hwf : WF v) :
    WF (Resize v n) := by
  obtain ⟨h1, h2⟩ := hwf
  unfold Resize
  split
  · next hle => exact ⟨h1, by simp; omega⟩
  · split
    · next hn hc =>
      constructor
      · show (setRangeDefault v.items v.size n).length = v.capacity
        rw [length_setRangeDefault v.items (by omega) (by omega)]
        exact h1
      · show n ≤ v.capacity
        exact hc
    · next hn hc =>
      have hcl : (copyInto (logical v)
          (newBuffer α (max n (2 * v.capacity)))).length = max n (2 * v.capacity) := by
        rw [length_copyInto]
        simp [logical, newBuffer]; omega
      constructor
      · show (setRangeDefault (copyInto (logical v)
            (newBuffer α (max n (2 * v.capacity)))) v.size n).length =
          max n (2 * v.capacity)
        rw [length_setRangeDefault _ (by omega) (by rw [hcl]; omega), hcl]
      · show n ≤ max n (2 * v.capacity)
        omega

lemma logical_Resize [Inhabited α] (v : SimpleVector α) (n : Nat) (hwf : WF v) :
    logical (Resize v n) =
      (logical v).take n ++ List.replicate (n - v.size) default := by
  obtain ⟨h1, h2⟩ := hwf
  unfold Resize
  split
  · next hle =>
    simp [logical, List.take_take, Nat.sub_eq_zero_of_le hle,
      Nat.min_eq_left hle]
  · split
    · next hn hc =>
      show (setRangeDefault v.items v.size n).take n = _
      rw [setRangeDefault, List.take_left' (by simp; omega)]
      rw [logical, List.take_take, Nat.min_eq_right (by omega)]
    · next hn hc =>
      show (setRangeDefault
          (copyInto (logical v) (newBuffer α (max n (2 * v.capacity))))
          v.size n).take n = _
      have hL : (logical v).length = v.size := by simp [logical]; omega
      rw [setRangeDefault, copyInto, hL, newBuffer, List.drop_replicate,
        List.take_left' hL, List.take_left' (by simp [hL]; omega),
        List.take_of_length_le (by omega)]

lemma elemAt_Resize_old [Inhabited α] (v : SimpleVector α) {n i : Nat}
    (hwf : WF v) (h1 : i < v.size) (h2 : i < n) :
    elemAt (Resize v n) i = elemAt v i := by
  have hsz := Resize_size v n
  rw [elemAt_eq_logical_getD _ (by omega), logical_Resize v n hwf,
    List.getD_append _ _ _ _ (by rw [List.length_take, logical_length v hwf]; omega),
    getD_of_take h2, ← elemAt_eq_logical_getD v h1]

lemma elemAt_Resize_new [Inhabited α] (v : SimpleVector α) {n i : Nat}
    (hwf : WF v) (h1 : v.size ≤ i) (h2 : i < n) :
    elemAt (Resize v n) i = default := by
  have hsz := Resize_size v n
  have hlen : ((logical v).take n).length = v.size := by
    rw [List.length_take, logical_length v hwf]; omega
  rw [elemAt_eq_logical_getD _ (by omega), logical_Resize v n hwf,
    List.getD_append_right _ _ _ _ (by omega), hlen,
    getD_replicate_of_lt (by omega)]

example : logical (fromList ([1, 2, 3] : List Int)) = [1, 2, 3] := by decide
example : (pushMany (emptyVec : SimpleVector Int) [1, 2, 3, 4, 5]).capacity = 8 := by
  decide
example : logical (pushMany (emptyVec : SimpleVector Int) [1, 2, 3, 4, 5]) =
    [1, 2, 3, 4, 5] := by decide
example : logical (Erase (pushMany (emptyVec : SimpleVector Int) [1, 2, 3, 4, 5]) 1) =
    [1, 3, 4, 5] := by decide
example : logical (Insert (fromList ([1, 2, 3] : List Int)) 1 9) = [1, 9, 2, 3] := by
  decide
example : logical (Erase (Insert (fromList ([1, 2, 3] : List Int)) 1 9) 1) =
    [1, 2, 3] := by decide
example : svLt (fromList ([1, 2] : List Int)) (fromList [1, 2, 3]) = true := by decide
example : copyAssignInterrupted (fromList ([1] : List Int)) (fromList [3]) 0 =
    { items := [0], size := 1, capacity := 1 } := by decide

lemma Resize_of_le [Inhabited α] (v : SimpleVector α) {n : Nat} (h : n ≤ v.size) :
    Resize v n = { v with size := n } := by
  unfold Resize; rw [if_pos h]

/-- Claim C2: `Resize(new_size)` behaves by exactly three cases: if
`new_size <= size` it only sets the size, leaving the buffer and the elements
below `new_size` unchanged; if `size < new_size <= capacity` it default-fills
slots `[size, new_size)` and sets the size, preserving the prefix and the
capacity; if `new_size > capacity` it reallocates with capacity
`max(new_size, 2 * capacity)`, keeps the old `[0, size)` elements in the
prefix, and default-fills `[size, new_size)`. -/
theorem Resize_three_cases [Inhabited α] (v : SimpleVector α) (n : Nat)
    (hwf : WF v) :
    (Resize v n).size = n ∧
    (n ≤ v.size →
      (Resize v n).capacity = v.capacity ∧
      (Resize v n).items = v.items ∧
      ∀ i, i < n → elemAt (Resize v n) i = elemAt v i) ∧
    (v.size < n → n ≤ v.capacity →
      (Resize v n).capacity = v.capacity ∧
      (∀ i, i < v.size → elemAt (Resize v n) i = elemAt v i) ∧
      (∀ i, v.size ≤ i → i < n → elemAt (Resize v n) i = default)) ∧
    (v.capacity < n →
      (Resize v n).capacity = max n (2 * v.capacity) ∧
      (∀ i, i < v.size → elemAt (Resize v n) i = elemAt v i) ∧
      (∀ i, v.size ≤ i → i < n → elemAt (Resize v n) i = default)) := by
  refine ⟨Resize_size v n, ?_, ?_, ?_⟩
  · intro h
    refine ⟨by rw [Resize_of_le v h], by rw [Resize_of_le v h], ?_⟩
    intro i hi
    exact elemAt_Resize_old v hwf (by omega) hi
  · intro h1 h2
    refine ⟨?_, fun i hi => elemAt_Resize_old v hwf hi (by omega),
      fun i hi1 hi2 => elemAt_Resize_new v hwf hi1 hi2⟩
    rw [Resize_capacity v n hwf.2, if_pos h2]
  · intro h
    have hs : v.size ≤ v.capacity := hwf.2
    refine ⟨?_, fun i hi => elemAt_Resize_old v hwf hi (by omega),
      fun i hi1 hi2 => elemAt_Resize_new v hwf hi1 hi2⟩
    rw [Resize_capacity v n hwf.2, if_neg (by omega)]

/-- Witness for claim C2 at a concrete state with spare capacity. -/
theorem Resize_three_cases_witness :
    WF ({ items := [1, 2, 0, 0], size := 2, capacity := 4 } : SimpleVector Int) ∧
    (Resize ({ items := [1, 2, 0, 0], size := 2, capacity := 4 } :
      SimpleVector Int) 3).size = 3 :=
  ⟨by decide,
    (Resize_three_cases ({ items := [1, 2, 0, 0], size := 2, capacity := 4 } :
      SimpleVector Int) 3 (by decide)).1⟩

/-- Claim C8: `Reserve(n)` with `n <= Capacity()` changes nothing at all,
while `Reserve(n)` with `n > Capacity()` sets the capacity to exactly `n` and
preserves the size and every logical element. -/
theorem Reserve_spec [Inhabited α] (v : SimpleVector α) (n : Nat)
    (hwf : WF v) :
    (n ≤ v.capacity → Reserve v n = v) ∧
    (v.capacity < n →
      (Reserve v n).capacity = n ∧
      (Reserve v n).size = v.size ∧
      WF (Reserve v n) ∧
      ∀ i, i < v.size → elemAt (Reserve v n) i = elemAt v i) := by
  constructor
  · intro h; unfold Reserve; rw [if_neg (by omega)]
  · intro h
    have he : Reserve v n =
        { v with items := copyInto (logical v) (newBuffer α n), capacity := n } := by
      unfold Reserve; rw [if_pos h]
    refine ⟨by rw [he], by rw [he], ?_, ?_⟩
    · rw [he]
      constructor
      · show (copyInto (logical v) (newBuffer α n)).length = n
        rw [length_copyInto, logical_length v hwf]
        have := hwf.2
        simp [newBuffer]; omega
      · show v.size ≤ n
        have := hwf.2; omega
    · intro i hi
      rw [he]
      show (copyInto (logical v) (newBuffer α n)).getD i default = elemAt v i
      simp only [copyInto]
      rw [List.getD_append _ _ _ _ (by rw [logical_length v hwf]; omega)]
      exact (elemAt_eq_logical_getD v hi).symm

/-- Witness for claim C8: reserving above and below the current capacity. -/
theorem Reserve_spec_witness :
    ((Reserve (fromList ([1, 2, 3] : List Int)) 10).capacity = 10 ∧
      elemAt (Reserve (fromList ([1, 2, 3] : List Int)) 10) 1 = 2) ∧
    Reserve (fromList ([1, 2, 3] : List Int)) 2 = fromList [1, 2, 3] := by
  have h10 := Reserve_spec (fromList ([1, 2, 3] : List Int)) 10 (by decide)
  have h2 := Reserve_spec (fromList ([1, 2, 3] : List Int)) 2 (by decide)
  have hr := h10.2 (by decide)
  exact ⟨⟨hr.1, by rw [hr.2.2.2 1 (by decide)]; decide⟩, h2.1 (by decide)⟩

/-- Claim C10: removal never touches the storage: `PopBack` (a no-op on an
empty vector) and `Erase` at a valid position leave the capacity — and for
`PopBack` even the buffer — exactly as they were, changing only the size
(and, for `Erase`, the shifted element slots). -/
theorem removal_keeps_capacity (v : SimpleVector α) (i : Nat) :
    (PopBack v).capacity = v.capacity ∧
    (PopBack v).items = v.items ∧
    (v.size = 0 → PopBack v = v) ∧
    (0 < v.size → (PopBack v).size = v.size - 1) ∧
    (0 < v.size → i < v.size →
      (Erase v i).capacity = v.capacity ∧ (Erase v i).size = v.size - 1) := by
  refine ⟨?_, ?_, ?_, ?_, fun _ _ => ⟨rfl, rfl⟩⟩
  · unfold PopBack; split <;> rfl
  · unfold PopBack; split <;> rfl
  · intro h; unfold PopBack; rw [if_neg (by omega)]
  · intro h; unfold PopBack; rw [if_pos h]

/-- Witness for claim C10 on a three-element vector. -/
theorem removal_keeps_capacity_witness :
    (PopBack (fromList ([1, 2, 3] : List Int))).capacity = 3 ∧
    (Erase (fromList ([1, 2, 3] : List Int)) 1).capacity = 3 :=
  ⟨(removal_keeps_capacity (fromList ([1, 2, 3] : List Int)) 1).1.trans (by decide),
    ((removal_keeps_capacity (fromList ([1, 2, 3] : List Int)) 1).2.2.2.2
      (by decide) (by decide)).1.trans (by decide)⟩

/-- Claim C5: `At(i)` fails, with the descriptive message
`"Index is out of range"`, exactly when `i >= Size()`; the vector is never
modified, and for `i < Size()` the result is the value of unchecked access
`operator[]`. -/
theorem At_spec [Inhabited α] (v : SimpleVector α) (i : Nat) :
    ((∃ msg, (At v i).1 = Except.error msg) ↔ v.size ≤ i) ∧
    (v.size ≤ i → At v i = (Except.error "Index is out of range", v)) ∧
    (i < v.size → At v i = (Except.ok (elemAt v i), v)) ∧
    (At v i).2 = v := by
  unfold At
  by_cases h : v.size ≤ i
  · rw [if_pos h]
    exact ⟨⟨fun _ => h, fun _ => ⟨_, rfl⟩⟩, fun _ => rfl,
      fun h2 => absurd h (by omega), rfl⟩
  · rw [if_neg h]
    refine ⟨⟨?_, fun h2 => absurd h2 h⟩, fun h2 => absurd h2 h, fun _ => rfl, rfl⟩
    rintro ⟨msg, hmsg⟩
    exact Except.noConfusion hmsg

/-- Witness for claim C5 at a concrete vector, in range and out of range. -/
theorem At_spec_witness :
    At (fromList ([7, 8] : List Int)) 1 =
      (Except.ok (elemAt (fromList ([7, 8] : List Int)) 1),
        fromList ([7, 8] : List Int)) ∧
    At (fromList ([7, 8] : List Int)) 2 =
      (Except.error "Index is out of range", fromList ([7, 8] : List Int)) :=
  ⟨(At_spec (fromList ([7, 8] : List Int)) 1).2.2.1 (by decide),
    (At_spec (fromList ([7, 8] : List Int)) 2).2.1 (by decide)⟩

/-- Claim C4: move-construction and move-assignment (into a distinct target)
leave the source empty with size 0 and capacity 0, and the destination holds
exactly the element sequence the source held before the move. -/
theorem move_empties_source (v target : SimpleVector α) :
    ((moveConstruct v).1.size = v.size ∧
      (moveConstruct v).1.capacity = v.capacity ∧
      logical (moveConstruct v).1 = logical v ∧
      (moveConstruct v).2.size = 0 ∧
      (moveConstruct v).2.capacity = 0) ∧
    ((moveAssign target v false).1.size = v.size ∧
      (moveAssign target v false).1.capacity = v.capacity ∧
      logical (moveAssign target v false).1 = logical v ∧
      (moveAssign target v false).2.size = 0 ∧
      (moveAssign target v false).2.capacity = 0) :=
  ⟨⟨rfl, rfl, rfl, rfl, rfl⟩, ⟨rfl, rfl, rfl, rfl, rfl⟩⟩

/-- Claim C7: self-assignment, copy and move, leaves the vector unchanged:
the `this != &rhs` guard short-circuits both operators. -/
theorem self_assignment_noop [Inhabited α] (v : SimpleVector α) :
    copyAssign v v true = v ∧ moveAssign v v true = (v, v) :=
  ⟨rfl, rfl⟩

/-- Claim C1 is refuted by the code: `operator=(const SimpleVector&)` swaps
the freshly allocated buffer into `*this` before `std::copy` runs, so a throw
while copying an element leaves the target holding the new default-filled
buffer instead of its old elements.  Concretely, for a target holding `{1}`
and a source `{3}`, a throw at the very first element copy leaves the target
with buffer `[0]` (old size 1, old capacity 1): element 0 now reads `0`, not
`1` — the target is modified, contradicting the claimed strong exception
safety. -/
theorem copyAssign_throw_modifies_target :
    copyAssignInterrupted (fromList ([1] : List Int)) (fromList [3]) 0 =
      { items := [0], size := 1, capacity := 1 } ∧
    elemAt (copyAssignInterrupted (fromList ([1] : List Int)) (fromList [3]) 0) 0
      = 0 ∧
    elemAt (fromList ([1] : List Int)) 0 = 1 ∧
    copyAssignInterrupted (fromList ([1] : List Int)) (fromList [3]) 0 ≠
      fromList ([1] : List Int) := by
  exact ⟨by decide, by decide, by decide, by decide⟩

lemma PushBack_size [Inhabited α] (v : SimpleVector α) (x : α) :
    (PushBack v x).size = v.size + 1 := by
  show (Resize v (v.size + 1)).size = v.size + 1
  exact Resize_size v (v.size + 1)

lemma PushBack_capacity [Inhabited α] (v : SimpleVector α) (x : α)
    (h : v.size ≤ v.capacity) :
    (PushBack v x).capacity =
      if v.size + 1 ≤ v.capacity then v.capacity
      else max (v.size + 1) (2 * v.capacity) := by
  show (Resize v (v.size + 1)).capacity = _
  exact Resize_capacity v (v.size + 1) h

lemma PushBack_WF [Inhabited α] (v : SimpleVector α) (x : α) (hwf : WF v) :
    WF (PushBack v x) := by
  have hw := Resize_WF v (v.size + 1) hwf
  have hsz := Resize_size v (v.size + 1)
  constructor
  · show ((Resize v (v.size + 1)).items.set _ x).length =
      (Resize v (v.size + 1)).capacity
    rw [List.length_set]
    exact hw.1
  · show (Resize v (v.size + 1)).size ≤ (Resize v (v.size + 1)).capacity
    exact hw.2

lemma logical_PushBack [Inhabited α] (v : SimpleVector α) (x : α)
    (hwf : WF v) : logical (PushBack v x) = logical v ++ [x] := by
  have hw := Resize_WF v (v.size + 1) hwf
  have hsz := Resize_size v (v.size + 1)
  have hlw : logical (Resize v (v.size + 1)) = logical v ++ [default] := by
    rw [logical_Resize v (v.size + 1) hwf,
      List.take_of_length_le (by rw [logical_length v hwf]; omega),
      Nat.add_sub_cancel_left, List.replicate_one]
  show ((Resize v (v.size + 1)).items.set
      ((Resize v (v.size + 1)).size - 1) x).take
      ((Resize v (v.size + 1)).size) = _
  rw [hsz, Nat.add_sub_cancel, List.set_take]
  have : (Resize v (v.size + 1)).items.take (v.size + 1) =
      logical (Resize v (v.size + 1)) := by rw [logical, hsz]
  rw [this, hlw,
    List.set_append_right _ _ (le_of_eq (logical_length v hwf)),
    logical_length v hwf, Nat.sub_self, List.set_cons_zero]

lemma capacity_le_PushBack [Inhabited α] (v : SimpleVector α) (x : α) :
    v.capacity ≤ (PushBack v x).capacity := by
  show v.capacity ≤ (Resize v (v.size + 1)).capacity
  unfold Resize
  split
  · exact le_refl _
  · split
    · exact le_refl _
    · show v.capacity ≤ max (v.size + 1) (2 * v.capacity)
      omega

lemma capacity_le_pushMany [Inhabited α] (v : SimpleVector α) (l : List α) :
    v.capacity ≤ (pushMany v l).capacity := by
  induction l generalizing v with
  | nil => exact le_refl _
  | cons a l ih =>
    exact le_trans (capacity_le_PushBack v a) (ih (PushBack v a))

lemma pushMany_inv [Inhabited α] (l : List α) :
    WF (pushMany (emptyVec : SimpleVector α) l) ∧
    (pushMany (emptyVec : SimpleVector α) l).size = l.length ∧
    logical (pushMany (emptyVec : SimpleVector α) l) = l ∧
    (l = [] → (pushMany (emptyVec : SimpleVector α) l).capacity = 0) ∧
    (l ≠ [] → ∃ k, (pushMany (emptyVec : SimpleVector α) l).capacity = 2 ^ k ∧
      l.length ≤ (pushMany (emptyVec : SimpleVector α) l).capacity ∧
      (pushMany (emptyVec : SimpleVector α) l).capacity < 2 * l.length) := by
  induction l using List.reverseRecOn with
  | nil =>
    exact ⟨⟨rfl, le_refl 0⟩, rfl, rfl, fun _ => rfl, fun h => absurd rfl h⟩
  | append_singleton l x ih =>
    obtain ⟨hwf, hsz, hlog, hcap0, hcapP⟩ := ih
    have hpm : pushMany (emptyVec : SimpleVector α) (l ++ [x]) =
        PushBack (pushMany (emptyVec : SimpleVector α) l) x := by
      simp [pushMany]
    set v := pushMany (emptyVec : SimpleVector α) l with hv
    rw [hpm]
    have hcap := PushBack_capacity v x hwf.2
    refine ⟨PushBack_WF v x hwf, ?_, ?_, by simp, ?_⟩
    · rw [PushBack_size, hsz]; simp
    · rw [logical_PushBack v x hwf, hlog]
    · intro _
      by_cases hl : l = []

      · have hs0 : v.size = 0 := by rw [hsz, hl]; rfl
        have hc0 : v.capacity = 0 := hcap0 hl
        refine ⟨0, ?_, ?_, ?_⟩ <;> rw [hcap, hs0, hc0] <;> simp [hl]
      · obtain ⟨k, hk, hk1, hk2⟩ := hcapP hl
        have hlen : 1 ≤ l.length := List.length_pos.2 hl
        by_cases hc : v.size + 1 ≤ v.capacity
        · refine ⟨k, ?_, ?_, ?_⟩ <;> rw [hcap, if_pos hc] <;>
            (try simp only [List.length_append, List.length_cons,
              List.length_nil]) <;> omega
        · have hceq : v.capacity = l.length := by omega
          have hpow : 2 ^ (k + 1) = 2 * 2 ^ k := by
            rw [Nat.pow_succ]; omega
          refine ⟨k + 1, ?_, ?_, ?_⟩ <;> rw [hcap, if_neg hc] <;>
            (try simp only [List.length_append, List.length_cons,
              List.length_nil]) <;> omega

/-- Claim C3: starting from a default-constructed vector, after pushing the
elements of `l` in order the size is `l.length`, element `i` is the
`(i+1)`-th pushed item, the capacity never decreases along the sequence, and
the final capacity is the doubling sequence value: `0` for no pushes,
otherwise the least power of two that is at least the number of pushes. -/
theorem PushBack_sequence_spec [Inhabited α] (l : List α) :
    (pushMany (emptyVec : SimpleVector α) l).size = l.length ∧
    (∀ i, i < l.length →
      elemAt (pushMany (emptyVec : SimpleVector α) l) i = l.getD i default) ∧
    (∀ n, (pushMany (emptyVec : SimpleVector α) (l.take n)).capacity ≤
      (pushMany (emptyVec : SimpleVector α) l).capacity) ∧
    (l = [] → (pushMany (emptyVec : SimpleVector α) l).capacity = 0) ∧
    (l ≠ [] → ∃ k,
      (pushMany (emptyVec : SimpleVector α) l).capacity = 2 ^ k ∧
      l.length ≤ (pushMany (emptyVec : SimpleVector α) l).capacity ∧
      (pushMany (emptyVec : SimpleVector α) l).capacity < 2 * l.length) := by
  obtain ⟨hwf, hsz, hlog, hcap0, hcapP⟩ := pushMany_inv (α := α) l
  refine ⟨hsz, ?_, ?_, hcap0, hcapP⟩
  · intro i hi
    rw [elemAt_eq_logical_getD _ (by omega), hlog]
  · intro n
    have hsplit : pushMany (emptyVec : SimpleVector α) l =
        pushMany (pushMany (emptyVec : SimpleVector α) (l.take n))
          (l.drop n) := by
      rw [pushMany, pushMany, pushMany, ← List.foldl_append,
        List.take_append_drop]
    rw [hsplit]
    exact capacity_le_pushMany _ (l.drop n)

/-- Witness for claim C3: five pushes starting from the empty vector. -/
theorem PushBack_sequence_spec_witness :
    (pushMany (emptyVec : SimpleVector Int) [1, 2, 3, 4, 5]).size = 5 ∧
    elemAt (pushMany (emptyVec : SimpleVector Int) [1, 2, 3, 4, 5]) 2 = 3 ∧
    (∃ k, (pushMany (emptyVec : SimpleVector Int) [1, 2, 3, 4, 5]).capacity
        = 2 ^ k ∧
      5 ≤ (pushMany (emptyVec : SimpleVector Int) [1, 2, 3, 4, 5]).capacity ∧
      (pushMany (emptyVec : SimpleVector Int) [1, 2, 3, 4, 5]).capacity < 10) := by
  have h := PushBack_sequence_spec (α := Int) [1, 2, 3, 4, 5]
  refine ⟨h.1, ?_, ?_⟩
  · have := h.2.1 2 (by decide)
    simpa using this
  · have := h.2.2.2.2 (by decide)
    simpa using this

lemma set_take_succ (l : List α) (i : Nat) (x : α) (h : i < l.length) :
    (l.take (i + 1)).set i x = l.take i ++ [x] := by
  induction l generalizing i with
  | nil => simp at h
  | cons a l ih =>
    cases i with
    | zero => rfl
    | succ i =>
      simp only [List.take_succ_cons, List.set_cons_succ, List.cons_append]
      rw [ih i (by simpa using h)]

lemma Insert_unfold [Inhabited α] (v : SimpleVector α) (i : Nat) (x : α) :
    Insert v i x =
      { items := ((Resize v (v.size + 1)).items.take (i + 1)
          ++ ((Resize v (v.size + 1)).items.drop i).take
              ((Resize v (v.size + 1)).size - 1 - i)
          ++ (Resize v (v.size + 1)).items.drop
              (Resize v (v.size + 1)).size).set i x
        size := (Resize v (v.size + 1)).size
        capacity := (Resize v (v.size + 1)).capacity } := rfl

lemma Insert_size [Inhabited α] (v : SimpleVector α) (i : Nat) (x : α) :
    (Insert v i x).size = v.size + 1 := by
  rw [Insert_unfold]
  exact Resize_size v (v.size + 1)

lemma Insert_WF [Inhabited α] (v : SimpleVector α) (i : Nat) (x : α)
    (hwf : WF v) (hi : i ≤ v.size) : WF (Insert v i x) := by
  have hw := Resize_WF v (v.size + 1) hwf
  have h1 := hw.1
  have h2 := hw.2
  have hsz := Resize_size v (v.size + 1)
  rw [hsz] at h2
  rw [Insert_unfold]
  constructor
  · simp only [List.length_set, List.length_append, List.length_take,
      List.length_drop, hsz]
    omega
  · simpa [hsz] using h2

lemma logical_Resize_succ [Inhabited α] (v : SimpleVector α) (hwf : WF v) :
    logical (Resize v (v.size + 1)) = logical v ++ [default] := by
  rw [logical_Resize v (v.size + 1) hwf,
    List.take_of_length_le (by rw [logical_length v hwf]; omega),
    Nat.add_sub_cancel_left, List.replicate_one]

lemma logical_Insert [Inhabited α] (v : SimpleVector α) (i : Nat) (x : α)
    (hwf : WF v) (hi : i ≤ v.size) :
    logical (Insert v i x) =
      (logical v).take i ++ x :: (logical v).drop i := by
  have hw := Resize_WF v (v.size + 1) hwf
  have hsz := Resize_size v (v.size + 1)
  have hmlen : v.size + 1 ≤ (Resize v (v.size + 1)).items.length := by
    have hw2 := hw.2
    rw [hsz] at hw2
    rw [hw.1]; exact hw2
  have hKm : (Resize v (v.size + 1)).items.take (v.size + 1) =
      logical v ++ [default] := by
    have hK := logical_Resize_succ v hwf
    rw [logical, hsz] at hK
    exact hK
  have hLlen : (logical v).length = v.size := logical_length v hwf
  rw [Insert_unfold, logical]
  simp only [hsz, Nat.add_sub_cancel]
  rw [List.append_assoc,
    List.set_append_left _ x (by simp [List.length_take]; omega),
    List.take_append_eq_append_take,
    List.take_of_length_le (by simp [List.length_set, List.length_take]; omega)]
  have hfl : (((Resize v (v.size + 1)).items.take (i + 1)).set i x).length
      = i + 1 := by
    simp [List.length_set, List.length_take]; omega
  rw [hfl]
  have hsub : v.size + 1 - (i + 1) = v.size - i := by omega
  rw [hsub,
    List.take_append_of_le_length (by simp [List.length_take, List.length_drop]; omega),
    List.take_take, Nat.min_self,
    set_take_succ _ i x (by omega)]
  have hmi : (Resize v (v.size + 1)).items.take i = (logical v).take i := by
    rw [show (Resize v (v.size + 1)).items.take i =
        ((Resize v (v.size + 1)).items.take (v.size + 1)).take i by
      rw [List.take_take, Nat.min_eq_left (by omega)]]
    rw [hKm, List.take_append_of_le_length (by omega)]
  have hms : (Resize v (v.size + 1)).items.take v.size = logical v := by
    rw [show (Resize v (v.size + 1)).items.take v.size =
        ((Resize v (v.size + 1)).items.take (v.size + 1)).take v.size by
      rw [List.take_take, Nat.min_eq_left (by omega)]]
    rw [hKm, List.take_append_of_le_length (by omega),
      List.take_of_length_le (by omega)]
  have hdi : ((Resize v (v.size + 1)).items.drop i).take (v.size - i) =
      (logical v).drop i := by
    rw [← List.drop_take v.size i, hms]
  rw [hmi, hdi]
  simp

lemma logical_Erase (v : SimpleVector α) (i : Nat) (hwf : WF v)
    (hi : i < v.size) :
    logical (Erase v i) = (logical v).take i ++ (logical v).drop (i + 1) := by
  obtain ⟨h1, h2⟩ := hwf
  simp only [Erase, logical]
  rw [List.take_left' (by simp [List.length_take, List.length_drop]; omega)]
  have ha : (v.items.take v.size).take i = v.items.take i := by
    rw [List.take_take, Nat.min_eq_left (by omega)]
  have hb : (v.items.take v.size).drop (i + 1) =
      (v.items.drop (i + 1)).take (v.size - 1 - i) := by
    rw [List.drop_take]
    congr 1
    omega
  rw [ha, hb]

lemma Erase_size (v : SimpleVector α) (i : Nat) :
    (Erase v i).size = v.size - 1 := rfl

lemma Erase_WF (v : SimpleVector α) (i : Nat) (hwf : WF v) (hi : i < v.size) :
    WF (Erase v i) := by
  obtain ⟨h1, h2⟩ := hwf
  constructor
  · show (v.items.take i ++ (v.items.drop (i + 1)).take (v.size - 1 - i)
      ++ v.items.drop (v.size - 1)).length = v.capacity
    simp only [List.length_append, List.length_take, List.length_drop]
    omega
  · show v.size - 1 ≤ v.capacity
    omega

/-- Claim C6: for every well-formed vector and every insertion index
`i ≤ Size()`, inserting a value at `i` and then erasing at `i` restores the
logical element sequence exactly. -/
theorem Insert_Erase_roundtrip [Inhabited α] (v : SimpleVector α) (i : Nat)
    (x : α) (hwf : WF v) (hi : i ≤ v.size) :
    logical (Erase (Insert v i x) i) = logical v := by
  have hWF' := Insert_WF v i x hwf hi
  have hsz := Insert_size v i x
  have hLlen : (logical v).length = v.size := logical_length v hwf
  rw [logical_Erase _ i hWF' (by omega), logical_Insert v i x hwf hi]
  have htk : ((logical v).take i ++ x :: (logical v).drop i).take i =
      (logical v).take i := by
    rw [List.take_append_of_le_length (by simp [List.length_take]; omega),
      List.take_take, Nat.min_self]
  have hdr : ((logical v).take i ++ x :: (logical v).drop i).drop (i + 1) =
      (logical v).drop i := by
    rw [show (logical v).take i ++ x :: (logical v).drop i =
        ((logical v).take i ++ [x]) ++ (logical v).drop i by simp]
    rw [List.drop_left' (by simp [List.length_take]; omega)]
  rw [htk, hdr, List.take_append_drop]

/-- Witness for claim C6: insert 9 at index 1 of `{1, 2, 3}`, then erase it. -/
theorem Insert_Erase_roundtrip_witness :
    logical (Erase (Insert (fromList ([1, 2, 3] : List Int)) 1 9) 1) =
      logical (fromList ([1, 2, 3] : List Int)) :=
  Insert_Erase_roundtrip (fromList ([1, 2, 3] : List Int)) 1 9
    (by decide) (by decide)

lemma listEqual_iff [DecidableEq α] :
    ∀ a b : List α, listEqual a b = true ↔ a = b := by
  intro a
  induction a with
  | nil =>
    intro b
    cases b <;> simp [listEqual]
  | cons x xs ih =>
    intro b
    cases b with
    | nil => simp [listEqual]
    | cons y ys =>
      by_cases hxy : x = y
      · subst hxy
        simp [listEqual, ih ys]
      · simp [listEqual, hxy]

lemma lexCompare_iff [LinearOrder α] [Inhabited α] :
    ∀ a b : List α, lexCompare a b = true ↔ LexSpec a b := by
  intro a
  induction a with
  | nil =>
    intro b
    cases b with
    | nil =>
      simp only [lexCompare, LexSpec]
      constructor
      · intro h; cases h
      · rintro (⟨i, hi, _⟩ | ⟨hlen, _⟩)
        · simp at hi
        · simp at hlen
    | cons y ys =>
      simp only [lexCompare, LexSpec]
      constructor
      · intro _
        exact Or.inr ⟨by simp, fun j hj => by simp at hj⟩
      · intro _; trivial
  | cons x xs ih =>
    intro b
    cases b with
    | nil =>
      simp only [lexCompare, LexSpec]
      constructor
      · intro h; cases h
      · rintro (⟨i, _, hi2, _⟩ | ⟨hlen, _⟩)
        · simp at hi2
        · simp at hlen
    | cons y ys =>
      simp only [lexCompare]
      rcases lt_trichotomy x y with hxy | hxy | hxy
      · rw [if_pos hxy]
        constructor
        · intro _
          exact Or.inl ⟨0, by simp, by simp,
            fun j hj => absurd hj (by omega), by simpa using hxy⟩
        · intro _; rfl
      · subst hxy
        rw [if_neg (lt_irrefl x), if_neg (lt_irrefl x), ih ys]
        constructor
        · rintro (⟨i, hi1, hi2, hall, hlt⟩ | ⟨hlen, hall⟩)
          · refine Or.inl ⟨i + 1, by simpa using hi1, by simpa using hi2,
              ?_, by simpa using hlt⟩
            intro j hj
            cases j with
            | zero => simp
            | succ j =>
              have := hall j (by omega)
              simpa using this
          · refine Or.inr ⟨by simpa using hlen, ?_⟩
            intro j hj
            cases j with
            | zero => simp
            | succ j =>
              have := hall j (by simpa using hj)
              simpa using this
        · rintro (⟨i, hi1, hi2, hall, hlt⟩ | ⟨hlen, hall⟩)
          · cases i with
            | zero =>
              simp only [List.getD_cons_zero] at hlt
              exact absurd hlt (lt_irrefl x)
            | succ i =>
              refine Or.inl ⟨i, by simpa using hi1, by simpa using hi2,
                ?_, by simpa using hlt⟩
              intro j hj
              have := hall (j + 1) (by omega)
              simpa using this
          · refine Or.inr ⟨by simpa using hlen, ?_⟩
            intro j hj
            have := hall (j + 1) (by simpa using hj)
            simpa using this
      · rw [if_neg (asymm hxy), if_pos hxy]
        constructor
        · intro h; cases h
        · rintro (⟨i, hi1, hi2, hall, hlt⟩ | ⟨hlen, hall⟩)
          · cases i with
            | zero =>
              simp only [List.getD_cons_zero] at hlt
              exact absurd hlt (asymm hxy)
            | succ i =>
              have h0 := hall 0 (by omega)
              simp only [List.getD_cons_zero] at h0
              rw [h0] at hxy
              exact absurd hxy (lt_irrefl y)
          · have h0 := hall 0 (by simp)
            simp only [List.getD_cons_zero] at h0
            rw [h0] at hxy
            exact absurd hxy (lt_irrefl y)

lemma svEq_iff [DecidableEq α] [Inhabited α] (l r : SimpleVector α)
    (hl : WF l) (hr : WF r) :
    svEq l r = true ↔
      (l.size = r.size ∧ ∀ i, i < l.size → elemAt l i = elemAt r i) := by
  rw [svEq, listEqual_iff]
  constructor
  · intro h
    have hsz : l.size = r.size := by
      rw [← logical_length l hl, ← logical_length r hr, h]
    refine ⟨hsz, fun i hi => ?_⟩
    rw [elemAt_eq_logical_getD l hi, elemAt_eq_logical_getD r (by omega), h]
  · rintro ⟨hsz, hall⟩
    apply List.ext_getElem
      (by rw [logical_length l hl, logical_length r hr, hsz])
    intro i h1 h2
    have hi : i < l.size := by rwa [logical_length l hl] at h1
    have hlr := hall i hi
    rw [elemAt_eq_logical_getD l hi, elemAt_eq_logical_getD r (by omega)]
      at hlr
    rwa [List.getD_eq_getElem _ _ h1, List.getD_eq_getElem _ _ h2] at hlr

/-- Claim C9: `operator==` holds exactly when the two logical sequences have
equal size and pairwise-equal elements (the capacities play no role in the
definition), and `operator<` is standard lexicographic comparison: the first
differing element decides, and a strict prefix sorts before the longer
sequence; concretely `{1,2,3} == {1,2,3}`, `{1,2} < {1,2,3}` and
`{1,3} > {1,2,3}`. -/
theorem comparison_spec :
    (∀ (α : Type) [DecidableEq α] [Inhabited α] (l r : SimpleVector α),
      WF l → WF r →
      (svEq l r = true ↔
        (l.size = r.size ∧ ∀ i, i < l.size → elemAt l i = elemAt r i))) ∧
    (∀ (α : Type) [LinearOrder α] [Inhabited α] (l r : SimpleVector α),
      svLt l r = true ↔ LexSpec (logical l) (logical r)) ∧
    svEq (fromList ([1, 2, 3] : List Int)) (fromList [1, 2, 3]) = true ∧
    svLt (fromList ([1, 2] : List Int)) (fromList [1, 2, 3]) = true ∧
    svGt (fromList ([1, 3] : List Int)) (fromList [1, 2, 3]) = true :=
  ⟨fun _ _ _ l r hl hr => svEq_iff l r hl hr,
    fun _ _ _ l r => lexCompare_iff (logical l) (logical r),
    by decide, by decide, by decide⟩

/-- Witness for claim C9: the equality characterisation applied at a
concrete pair of well-formed vectors. -/
theorem comparison_spec_witness :
    svEq (fromList ([4, 5] : List Int)) (fromList [4, 5]) = true ↔
      ((fromList ([4, 5] : List Int)).size = (fromList ([4, 5] : List Int)).size ∧
        ∀ i, i < (fromList ([4, 5] : List Int)).size →
          elemAt (fromList ([4, 5] : List Int)) i =
            elemAt (fromList ([4, 5] : List Int)) i) :=
  comparison_spec.1 Int (fromList [4, 5]) (fromList [4, 5])
    (by decide) (by decide)

end SimpleVec
